import Mathlib

/-!
Verification of the catalog query pipeline of the Aleks-Food-Map application
(`src/unnamed/part_000`, the full `App.jsx`): the merge of the base place list
with the local edit overlay, the filter stage, the sort stage, the URL query
state round trip, and the overlay loader `loadEdits`.

Modelling conventions for the shallow embedding of the JavaScript source:
* JS strings are sequences of characters, embedded as `List Char` (`JsStr`);
  `toLowerCase`, `trim`, `includes` and lexicographic comparison are embedded
  as list functions below.  `localeCompare` is modelled as code-point
  lexicographic comparison.
* JS numbers are embedded as `ℚ`; a field that may be `undefined`, `null` or
  non-numeric is an `Option`.
* `Array.prototype.sort(cmp)` is required by ES2019 to be a stable sort; all
  stable sorts agree whenever `cmp` is a consistent comparison function, so the
  embedding commits to one concrete stable algorithm (`jsSort`, an insertion
  sort that keeps the earlier element of a tie on the left).  For a comparator
  that is *not* consistent — the `nearest` comparator returns `1` for every
  pair of coordinate-less places, in both argument orders — ECMAScript leaves
  the resulting order implementation-defined, and the embedding's behaviour is
  the committed model of that freedom.
* `haversineMiles` computes with floating-point trigonometry, which has no
  shallow embedding; the sort stage only ever uses the *order* of its values,
  so the distance function is a parameter `d : Loc → ℚ → ℚ → ℚ` of the sort
  stage, and the sort theorems hold for every such function.
-/

/-- A JavaScript string, embedded as its sequence of characters. -/
abbrev JsStr := List Char

/-- JS `String.prototype.toLowerCase`, applied per character. -/
def toLowerStr (s : JsStr) : JsStr := s.map Char.toLower

/-- JS `String.prototype.trim`: whitespace removed from both ends. -/
def trimStr (s : JsStr) : JsStr :=
  ((s.dropWhile Char.isWhitespace).reverse.dropWhile Char.isWhitespace).reverse

/-- JS `hay.includes(needle)`: `needle` occurs contiguously in `hay`. -/
def isSubstr (needle : JsStr) : JsStr → Bool
  | [] => needle.isEmpty
  | c :: rest => needle.isPrefixOf (c :: rest) || isSubstr needle rest

/-- A place record, after the base dataset's JSON is read (spec §3).  Fields
that may be absent, `null`, or (for numbers) non-numeric are `Option`s. -/
structure Place where
  id : JsStr
  name : Option JsStr
  address : Option JsStr
  lat : Option ℚ
  lon : Option ℚ
  city : Option JsStr
  neighborhood : Option JsStr
  cuisine : Option (List JsStr)
  tags : Option (List JsStr)
  rating : Option ℚ
  price : Option ℚ
  wouldReturn : Option Bool
  notes : Option JsStr
  photo : Option JsStr
  website : Option JsStr
  visitedAt : Option JsStr
  deriving DecidableEq, Repr

/-- An edit patch (spec §3): any subset of the five mutable fields, exactly
the shape `saveEdit` — the only writer of the overlay store — produces.  The
outer `Option` is presence of the field in the patch; the inner `Option` on
`rating`, `price` and `photo` is an explicit JSON `null`. -/
structure Patch where
  rating : Option (Option ℚ) := none
  price : Option (Option ℚ) := none
  wouldReturn : Option Bool := none
  notes : Option JsStr := none
  photo : Option (Option JsStr) := none
  deriving DecidableEq, Repr

/-- The JS spread `{ ...p, ...patch }` for an edit patch: a field present in
the patch (even one explicitly set to `null`) wins, every other field keeps
the base value. -/
def applyPatch (p : Place) (e : Patch) : Place :=
  { p with
    rating := e.rating.getD p.rating
    price := e.price.getD p.price
    wouldReturn := (e.wouldReturn.map some).getD p.wouldReturn
    notes := (e.notes.map some).getD p.notes
    photo := e.photo.getD p.photo }

/-- The merge stage (`places` in App.jsx):
`basePlaces.map((p) => { const patch = edits?.[p.id]; return patch ? { ...p, ...patch } : p; })`.
The overlay object is embedded as an association list keyed by place id. -/
def places (basePlaces : List Place) (edits : List (JsStr × Patch)) : List Place :=
  basePlaces.map fun p =>
    match edits.lookup p.id with
    | some patch => applyPatch p patch
    | none => p

/-- The URL-synced query state (spec §3). -/
structure QueryState where
  q : JsStr
  city : JsStr
  cuisine : JsStr
  neighborhood : JsStr
  tag : JsStr
  minRating : ℚ
  price : ℚ
  wouldReturn : Bool
  sort : JsStr
  deriving DecidableEq, Repr

/-- The free-text haystack of the filter stage:
`[p.name, p.address, p.city, p.neighborhood, ...(p.cuisine || []), ...(p.tags || []), p.notes].filter(Boolean).join(" ").toLowerCase()`.
`filter(Boolean)` drops absent fields and empty strings. -/
def hay (p : Place) : JsStr :=
  toLowerStr (List.intercalate [' ']
    (((([p.name, p.address, p.city, p.neighborhood].filterMap id)
        ++ p.cuisine.getD [] ++ p.tags.getD [] ++ [p.notes].filterMap id).filter
      fun s => !s.isEmpty)))

/-- The filter predicate of the filter stage (`filtered` in App.jsx), with the
source's early returns. -/
def matchesPlace (Q : QueryState) (p : Place) : Bool :=
  let qq := toLowerStr (trimStr Q.q)
  if Q.city ≠ [] ∧ p.city.getD [] ≠ Q.city then false
  else if Q.neighborhood ≠ [] ∧ p.neighborhood.getD [] ≠ Q.neighborhood then false
  else if Q.cuisine ≠ [] ∧ ¬ (p.cuisine.getD []).contains Q.cuisine then false
  else if Q.tag ≠ [] ∧ ¬ (p.tags.getD []).contains Q.tag then false
  else if 0 < Q.price ∧ p.price.getD 0 ≠ Q.price then false
  else if Q.wouldReturn = true ∧ p.wouldReturn ≠ some true then false
  else if 0 < Q.minRating ∧ p.rating.getD 0 < Q.minRating then false
  else if qq = [] then true
  else isSubstr qq (hay p)

/-- The filter stage: `places.filter((p) => ...)`. -/
def filtered (Q : QueryState) (ps : List Place) : List Place :=
  ps.filter (matchesPlace Q)

/-- The city predicate of the conjunction, stated positively: inactive
(empty) or an exact match against `p.city || ""`. -/
def cityOk (Q : QueryState) (p : Place) : Prop :=
  Q.city = [] ∨ p.city.getD [] = Q.city

/-- The neighborhood predicate: inactive or an exact match. -/
def neighborhoodOk (Q : QueryState) (p : Place) : Prop :=
  Q.neighborhood = [] ∨ p.neighborhood.getD [] = Q.neighborhood

/-- The cuisine predicate: inactive or a member of `p.cuisine || []`. -/
def cuisineOk (Q : QueryState) (p : Place) : Prop :=
  Q.cuisine = [] ∨ (p.cuisine.getD []).contains Q.cuisine = true

/-- The tag predicate: inactive or a member of `p.tags || []`. -/
def tagOk (Q : QueryState) (p : Place) : Prop :=
  Q.tag = [] ∨ (p.tags.getD []).contains Q.tag = true

/-- The price predicate: unconstrained (`price <= 0`) or
`Number(p.price || 0)` equal to the query's price. -/
def priceOk (Q : QueryState) (p : Place) : Prop :=
  Q.price ≤ 0 ∨ p.price.getD 0 = Q.price

/-- The would-return predicate: inactive or `p.wouldReturn === true`. -/
def wouldReturnOk (Q : QueryState) (p : Place) : Prop :=
  Q.wouldReturn = false ∨ p.wouldReturn = some true

/-- The minimum-rating predicate: unconstrained or the rating (0 when absent
or non-numeric) reaches the threshold. -/
def minRatingOk (Q : QueryState) (p : Place) : Prop :=
  Q.minRating ≤ 0 ∨ Q.minRating ≤ p.rating.getD 0

/-- The free-text predicate: the trimmed, case-folded term is empty, or it is
a substring of the haystack. -/
def textOk (Q : QueryState) (p : Place) : Prop :=
  toLowerStr (trimStr Q.q) = [] ∨ isSubstr (toLowerStr (trimStr Q.q)) (hay p) = true

/-- One active constraint of the query, for the constraint-removal law. -/
inductive Constraint where
  | city
  | neighborhood
  | cuisine
  | tag
  | price
  | wouldReturn
  | minRating
  | text
  deriving DecidableEq, Repr

/-- Deactivating a single constraint: the field is reset to its neutral
value (empty string, 0, or false). -/
def deactivate : Constraint → QueryState → QueryState
  | .city, Q => { Q with city := [] }
  | .neighborhood, Q => { Q with neighborhood := [] }
  | .cuisine, Q => { Q with cuisine := [] }
  | .tag, Q => { Q with tag := [] }
  | .price, Q => { Q with price := 0 }
  | .wouldReturn, Q => { Q with wouldReturn := false }
  | .minRating, Q => { Q with minRating := 0 }
  | .text, Q => { Q with q := [] }

/-- The comparator-driven insertion step of the embedded stable sort:
`le a b` means "the comparator returns a value ≤ 0 on (a, b)", so `a` is
placed before the first element it does not lose to. -/
def jsInsert (le : α → α → Bool) (a : α) : List α → List α
  | [] => [a]
  | b :: r => if le a b then a :: b :: r else b :: jsInsert le a r

/-- The embedding of `Array.prototype.sort(cmp)` (a stable sort, required by
ES2019): a structurally recursive stable insertion sort.  On a consistent
comparator this agrees with every stable sort; on an inconsistent comparator
ECMAScript leaves the order implementation-defined and this is the model's
committed behaviour. -/
def jsSort (le : α → α → Bool) : List α → List α
  | [] => []
  | a :: l => jsInsert le a (jsSort le l)

/-- The key of the default `top` comparator
`(a, b) => (Number(b.rating) || -1) - (Number(a.rating) || -1)`: the JS `||`
replaces every falsy value of `Number(rating)` by -1, so an absent or
non-numeric rating *and a rating of exactly 0* all become -1. -/
def topKey (p : Place) : ℚ :=
  match p.rating with
  | some r => if r = 0 then -1 else r
  | none => -1

/-- The sort key of the `name` strategy: `a.name || ""`. -/
def nameKey (p : Place) : JsStr := p.name.getD []

/-- The sort key of the `recent` strategy: `visitedAt || ""`. -/
def visitedKey (p : Place) : JsStr := p.visitedAt.getD []

/-- Code-point lexicographic string comparison, the embedding of
`String.prototype.localeCompare` as `cmp(s, t) <= 0`. -/
def lexLe : JsStr → JsStr → Bool
  | [], _ => true
  | _ :: _, [] => false
  | a :: s, b :: t => if a < b then true else if b < a then false else lexLe s t

/-- A user geolocation (`myLoc`). -/
structure Loc where
  lat : ℚ
  lon : ℚ
  deriving DecidableEq, Repr

/-- `Number.isFinite(Number(p.lat)) && Number.isFinite(Number(p.lon))`:
the place has usable coordinates. -/
def validCoords (p : Place) : Bool := p.lat.isSome && p.lon.isSome

/-- The distance from the user location to a place's coordinates, for an
abstract distance function `d` standing for `haversineMiles` (whose
floating-point trigonometry is not embeddable; only the order of its values
matters to the sort). -/
def distTo (d : Loc → ℚ → ℚ → ℚ) (u : Loc) (p : Place) : ℚ :=
  d u (p.lat.getD 0) (p.lon.getD 0)

/-- The `nearest` comparator as `cmp(a, b) <= 0`: the source returns 1 when
`a` lacks valid coordinates (so never ≤ 0), then -1 when `b` lacks them
(always ≤ 0), else `da - db`.  Note the comparator is not consistent: for two
coordinate-less places it returns 1 in both argument orders. -/
def nearestLe (d : Loc → ℚ → ℚ → ℚ) (u : Loc) (a b : Place) : Bool :=
  if validCoords a = false then false
  else if validCoords b = false then true
  else decide (distTo d u a ≤ distTo d u b)

/-- The effective sort key of the `nearest` strategy: the distance for a
place with valid coordinates, and `none` (an infinite key, after every
distance) for a coordinate-less place. -/
def nearestKey (d : Loc → ℚ → ℚ → ℚ) (u : Loc) (p : Place) : Option ℚ :=
  if validCoords p = true then some (distTo d u p) else none

/-- The `"top"` strategy identifier. -/
def topSort : JsStr := "top".data

/-- The `"recent"` strategy identifier. -/
def recentSort : JsStr := "recent".data

/-- The `"name"` strategy identifier. -/
def nameSort : JsStr := "name".data

/-- The `"nearest"` strategy identifier. -/
def nearestSort : JsStr := "nearest".data

/-- The sort stage (`sorted` in App.jsx): dispatch on the strategy string
with `top` as the default branch; `nearest` without a user location returns
the input unchanged. -/
def sorted (d : Loc → ℚ → ℚ → ℚ) (sort : JsStr) (myLoc : Option Loc)
    (l : List Place) : List Place :=
  if sort = nameSort then jsSort (fun a b => lexLe (nameKey a) (nameKey b)) l
  else if sort = recentSort then jsSort (fun a b => lexLe (visitedKey b) (visitedKey a)) l
  else if sort = nearestSort then
    match myLoc with
    | none => l
    | some u => jsSort (nearestLe d u) l
  else jsSort (fun a b => decide (topKey b ≤ topKey a)) l

/-- The key the spec's words assign to the `top` strategy ("descending by
rating, treating absent/non-numeric rating as -1"): a present rating keeps its
value, in particular a rating of 0 keeps key 0.  Stated only to be compared
with the code's `topKey`. -/
def specTopKey (p : Place) : ℚ := p.rating.getD (-1)

/-- A JSON value as `JSON.parse` produces it. -/
inductive JsValue where
  | null
  | bool (b : Bool)
  | num (q : ℚ)
  | str (s : JsStr)
  | arr (elems : List JsValue)
  | obj (fields : List (JsStr × JsValue))

/-- JS truthiness of a parsed JSON value. -/
def jsTruthy : JsValue → Bool
  | .null => false
  | .bool b => b
  | .num q => !(q == 0)
  | .str s => !s.isEmpty
  | .arr _ => true
  | .obj _ => true

/-- `typeof v === "object"` for a parsed JSON value: true for objects,
arrays and `null`. -/
def typeofObject : JsValue → Bool
  | .null => true
  | .arr _ => true
  | .obj _ => true
  | _ => false

/-- The overlay loader `loadEdits`.  `stored` is the persisted string under
the storage key (`none` when absent); `jsonParse` is the platform's
`JSON.parse`, `none` meaning it throws.  The `try`/`catch` and the falsy
check make the function total: absent, empty and unparsable content all fall
back to the empty object. -/
def loadEdits (jsonParse : JsStr → Option JsValue) (stored : Option JsStr) : JsValue :=
  match stored with
  | none => .obj []
  | some raw =>
    if raw.isEmpty then .obj []
    else
      match jsonParse raw with
      | none => .obj []
      | some parsed => if jsTruthy parsed && typeofObject parsed then parsed else .obj []

/-- One decimal digit as a character. -/
def digitChar (d : ℕ) : Char :=
  if d = 0 then '0' else if d = 1 then '1' else if d = 2 then '2'
  else if d = 3 then '3' else if d = 4 then '4' else if d = 5 then '5'
  else if d = 6 then '6' else if d = 7 then '7' else if d = 8 then '8' else '9'

/-- The decimal value of a digit character. -/
def charDigit (c : Char) : ℕ := c.toNat - 48

/-- The decimal digits of `n`, least significant first, by fuelled structural
recursion (`fuel ≥ n` suffices). -/
def natDigits : ℕ → ℕ → List ℕ
  | 0, _ => []
  | _ + 1, 0 => []
  | fuel + 1, n + 1 => (n + 1) % 10 :: natDigits fuel ((n + 1) / 10)

/-- Decimal rendering of a natural number (most significant digit first;
renders 0 as the empty string, which the encoder never emits). -/
def natToStr (n : ℕ) : JsStr := ((natDigits n n).map digitChar).reverse

/-- Decimal parsing of a digit string. -/
def strToNat (s : JsStr) : ℕ := Nat.ofDigits 10 (s.reverse.map charDigit)

/-- JS `String(x)` on a number.  JavaScript guarantees that `Number(String(x))`
round-trips every number; the embedding realises the same guarantee over ℚ
with an exact `numerator/denominator` rendering. -/
def numToStr (x : ℚ) : JsStr := natToStr x.num.toNat ++ '/' :: natToStr x.den

/-- JS `Number(s)`, the exact inverse of `numToStr` on its image, with
`strToNum "0" = 0` for the absent-parameter default. -/
def strToNum (s : JsStr) : ℚ :=
  match s.dropWhile (fun c => !(c == '/')) with
  | [] => (strToNat s : ℚ)
  | _ :: den => mkRat (strToNat (s.takeWhile (fun c => !(c == '/')))) (strToNat den)

/-- `writeUrlState`: the query-string parameters the encoder sets, in source
order, each only when its guard holds.  `URLSearchParams` is embedded as an
association list of (name, value) pairs; its percent-encoded serialisation is
value-faithful and is abstracted away. -/
def writeUrlState (state : QueryState) : List (JsStr × JsStr) :=
  (if state.q ≠ [] then [("q".data, state.q)] else [])
  ++ (if state.city ≠ [] then [("city".data, state.city)] else [])
  ++ (if state.cuisine ≠ [] then [("cuisine".data, state.cuisine)] else [])
  ++ (if state.neighborhood ≠ [] then [("hood".data, state.neighborhood)] else [])
  ++ (if state.tag ≠ [] then [("tag".data, state.tag)] else [])
  ++ (if 0 < state.minRating then [("minRating".data, numToStr state.minRating)] else [])
  ++ (if 0 < state.price then [("price".data, numToStr state.price)] else [])
  ++ (if state.wouldReturn = true then [("return".data, "1".data)] else [])
  ++ (if state.sort ≠ [] ∧ state.sort ≠ topSort then [("sort".data, state.sort)] else [])

/-- `parseUrlState`: each parameter read back with its default
(`sp.get(k) ?? default`), numbers through `Number`, `return` compared with
`"1"`. -/
def parseUrlState (sp : List (JsStr × JsStr)) : QueryState where
  q := (sp.lookup "q".data).getD []
  city := (sp.lookup "city".data).getD []
  cuisine := (sp.lookup "cuisine".data).getD []
  neighborhood := (sp.lookup "hood".data).getD []
  tag := (sp.lookup "tag".data).getD []
  minRating := strToNum ((sp.lookup "minRating".data).getD "0".data)
  price := strToNum ((sp.lookup "price".data).getD "0".data)
  wouldReturn := sp.lookup "return".data == some "1".data
  sort := (sp.lookup "sort".data).getD topSort

/-- A place with every optional field absent, the base for concrete
examples. -/
def blankPlace : Place where
  id := []
  name := none
  address := none
  lat := none
  lon := none
  city := none
  neighborhood := none
  cuisine := none
  tags := none
  rating := none
  price := none
  wouldReturn := none
  notes := none
  photo := none
  website := none
  visitedAt := none

/-- A concrete stand-in for the distance function in closed examples. -/
def dZero : Loc → ℚ → ℚ → ℚ := fun _ _ _ => 0

/-- A concrete user location for closed examples. -/
def uSeattle : Loc where
  lat := 47
  lon := -122

/-- A place with valid coordinates, for the sort counterexamples. -/
def cPike : Place :=
  { blankPlace with
    id := "pike".data,
    name := some "Pike Place".data,
    lat := some 47,
    lon := some (-122) }

/-- A coordinate-less place (first of a pair), for the sort counterexamples. -/
def cNoCoordsA : Place :=
  { blankPlace with id := "no-coords-a".data, name := some "A".data }

/-- A coordinate-less place (second of a pair), for the sort counterexamples. -/
def cNoCoordsB : Place :=
  { blankPlace with id := "no-coords-b".data, name := some "B".data }

/-- A coordinate-less place, for the nearest tie-break counterexample. -/
def cNoCoordsC : Place :=
  { blankPlace with id := "no-coords-c".data, name := some "C".data }

/-- A coordinate-less place, for the nearest tie-break counterexample. -/
def cNoCoordsD : Place :=
  { blankPlace with id := "no-coords-d".data, name := some "D".data }

/-- A place with no rating at all, for the top-sort counterexample. -/
def cUnrated : Place := { blankPlace with id := "unrated".data }

/-- A place rated exactly 0, for the top-sort counterexample. -/
def cZeroRated : Place := { blankPlace with id := "zero-rated".data, rating := some 0 }

/-- A parse function that behaves as `JSON.parse` does on the input `"[0]"`:
it yields the one-element array `[0]`. -/
def parseArrStub : JsStr → Option JsValue :=
  fun s => if s = "[0]".data then some (.arr [.num 0]) else none

/-- A concrete canonical query state for the URL round-trip witness. -/
def qStateDemo : QueryState where
  q := "ramen".data
  city := "Seattle".data
  cuisine := []
  neighborhood := "Ballard".data
  tag := []
  minRating := mkRat 9 2
  price := 0
  wouldReturn := true
  sort := "name".data

/-- C1 — Patch precedence of the merge stage: for every base place list and
every overlay mapping, the merge output corresponds place-for-place with the
base list; where the place's identifier has a patch, each of the five mutable
fields equals the patch's value whenever the patch carries the field —
`Option.getD` reads: a present field (even an explicit null, the inner
`none`) wins, an absent field keeps the base value — and every other field
equals the base value; where the identifier has no patch the place passes
through unchanged. -/
theorem merge_patch_precedence (basePlaces : List Place) (edits : List (JsStr × Patch)) :
    List.Forall₂ (fun p q =>
      match List.lookup p.id edits with
      | some e =>
          q.rating = e.rating.getD p.rating ∧
          q.price = e.price.getD p.price ∧
          q.wouldReturn = (e.wouldReturn.map some).getD p.wouldReturn ∧
          q.notes = (e.notes.map some).getD p.notes ∧
          q.photo = e.photo.getD p.photo ∧
          q.id = p.id ∧ q.name = p.name ∧ q.address = p.address ∧
          q.lat = p.lat ∧ q.lon = p.lon ∧ q.city = p.city ∧
          q.neighborhood = p.neighborhood ∧ q.cuisine = p.cuisine ∧
          q.tags = p.tags ∧ q.website = p.website ∧ q.visitedAt = p.visitedAt
      | none => q = p)
      basePlaces (places basePlaces edits) := by
  induction basePlaces with
  | nil => exact List.Forall₂.nil
  | cons p l ih =>
    simp only [places, List.map_cons]
    refine List.Forall₂.cons ?_ (by simpa [places] using ih)
    cases h : List.lookup p.id edits with
    | some e => simp [h, applyPatch]
    | none => simp [h]

/-- C6 — Frame invariant of patch application: whatever the overlay holds,
every merged place keeps the identifier, name, latitude and longitude of its
base place; only the mutable fields can differ. -/
theorem merge_frame_invariant (basePlaces : List Place) (edits : List (JsStr × Patch)) :
    List.Forall₂ (fun p q => q.id = p.id ∧ q.name = p.name ∧ q.lat = p.lat ∧ q.lon = p.lon)
      basePlaces (places basePlaces edits) := by
  induction basePlaces with
  | nil => exact List.Forall₂.nil
  | cons p l ih =>
    simp only [places, List.map_cons]
    refine List.Forall₂.cons ?_ (by simpa [places] using ih)
    cases h : List.lookup p.id edits with
    | some e => simp [applyPatch]
    | none => simp

/-- C9 — Merge identity on the empty overlay: merging any base list with the
empty overlay returns the base list itself, so order and length are
preserved. -/
theorem merge_empty_overlay (basePlaces : List Place) :
    places basePlaces [] = basePlaces ∧
      (places basePlaces []).length = basePlaces.length := by
  have h : places basePlaces [] = basePlaces := by
    simp [places, List.lookup]
  exact ⟨h, by rw [h]⟩

/-- The early-return filter predicate equals the conjunction of the eight
independent predicates. -/
theorem matchesPlace_iff (Q : QueryState) (p : Place) :
    matchesPlace Q p = true ↔
      cityOk Q p ∧ neighborhoodOk Q p ∧ cuisineOk Q p ∧ tagOk Q p ∧ priceOk Q p ∧
        wouldReturnOk Q p ∧ minRatingOk Q p ∧ textOk Q p := by
  have hcity : ¬(Q.city ≠ [] ∧ p.city.getD [] ≠ Q.city) → cityOk Q p := fun h => by
    rcases not_and_or.mp h with h' | h'
    · exact Or.inl (not_not.mp h')
    · exact Or.inr (not_not.mp h')
  have hhood : ¬(Q.neighborhood ≠ [] ∧ p.neighborhood.getD [] ≠ Q.neighborhood) →
      neighborhoodOk Q p := fun h => by
    rcases not_and_or.mp h with h' | h'
    · exact Or.inl (not_not.mp h')
    · exact Or.inr (not_not.mp h')
  have hcui : ¬(Q.cuisine ≠ [] ∧ ¬(p.cuisine.getD []).contains Q.cuisine) →
      cuisineOk Q p := fun h => by
    rcases not_and_or.mp h with h' | h'
    · exact Or.inl (not_not.mp h')
    · exact Or.inr (not_not.mp h')
  have htag : ¬(Q.tag ≠ [] ∧ ¬(p.tags.getD []).contains Q.tag) → tagOk Q p := fun h => by
    rcases not_and_or.mp h with h' | h'
    · exact Or.inl (not_not.mp h')
    · exact Or.inr (not_not.mp h')
  have hpri : ¬(0 < Q.price ∧ p.price.getD 0 ≠ Q.price) → priceOk Q p := fun h => by
    rcases not_and_or.mp h with h' | h'
    · exact Or.inl (not_lt.mp h')
    · exact Or.inr (not_not.mp h')
  have hwr : ¬(Q.wouldReturn = true ∧ p.wouldReturn ≠ some true) → wouldReturnOk Q p :=
    fun h => by
    rcases not_and_or.mp h with h' | h'
    · exact Or.inl (Bool.not_eq_true Q.wouldReturn ▸ h')
    · exact Or.inr (not_not.mp h')
  have hmr : ¬(0 < Q.minRating ∧ p.rating.getD 0 < Q.minRating) → minRatingOk Q p :=
    fun h => by
    rcases not_and_or.mp h with h' | h'
    · exact Or.inl (not_lt.mp h')
    · exact Or.inr (not_lt.mp h')
  simp only [matchesPlace]
  split_ifs with h1 h2 h3 h4 h5 h6 h7 h8
  · exact iff_of_false (by simp) fun hR =>
      (show _ ∨ _ from hR.1).elim h1.1 h1.2
  · exact iff_of_false (by simp) fun hR =>
      (show _ ∨ _ from hR.2.1).elim h2.1 h2.2
  · exact iff_of_false (by simp) fun hR =>
      (show _ ∨ _ from hR.2.2.1).elim h3.1 h3.2
  · exact iff_of_false (by simp) fun hR =>
      (show _ ∨ _ from hR.2.2.2.1).elim h4.1 h4.2
  · exact iff_of_false (by simp) fun hR =>
      (show _ ∨ _ from hR.2.2.2.2.1).elim (fun hle => absurd h5.1 (not_lt.mpr hle)) h5.2
  · exact iff_of_false (by simp) fun hR =>
      (show _ ∨ _ from hR.2.2.2.2.2.1).elim (fun hf => by simp [hf] at h6) h6.2
  · exact iff_of_false (by simp) fun hR =>
      (show _ ∨ _ from hR.2.2.2.2.2.2.1).elim
        (fun hle => absurd h7.1 (not_lt.mpr hle))
        (fun hle => absurd h7.2 (not_lt.mpr hle))
  · exact iff_of_true rfl
      ⟨hcity h1, hhood h2, hcui h3, htag h4, hpri h5, hwr h6, hmr h7, Or.inl h8⟩
  · constructor
    · intro hs
      exact ⟨hcity h1, hhood h2, hcui h3, htag h4, hpri h5, hwr h6, hmr h7, Or.inr hs⟩
    · intro hR
      exact (show _ ∨ _ from hR.2.2.2.2.2.2.2).elim (fun he => absurd he h8) id

/-- C2 — Filter conjunction and constraint-removal monotonicity: a place is in
the filter output iff it is in the input and independently satisfies every
active predicate (city, neighborhood, cuisine membership, tag membership,
price, would-return, minimum rating with an absent rating treated as 0, and
free-text substring match); and deactivating any single constraint keeps
every place that the full query kept, so the result set can only grow or stay
the same. -/
theorem filter_conjunction_monotone (ps : List Place) (Q : QueryState) :
    (∀ p, p ∈ filtered Q ps ↔
        p ∈ ps ∧ cityOk Q p ∧ neighborhoodOk Q p ∧ cuisineOk Q p ∧ tagOk Q p ∧
          priceOk Q p ∧ wouldReturnOk Q p ∧ minRatingOk Q p ∧ textOk Q p) ∧
    (∀ c p, p ∈ filtered Q ps → p ∈ filtered (deactivate c Q) ps) := by
  constructor
  · intro p
    rw [filtered, List.mem_filter, matchesPlace_iff]
  · intro c p hp
    rw [filtered, List.mem_filter] at hp ⊢
    obtain ⟨hmem, hm⟩ := hp
    obtain ⟨h1, h2, h3, h4, h5, h6, h7, h8⟩ := (matchesPlace_iff Q p).mp hm
    refine ⟨hmem, (matchesPlace_iff _ p).mpr ?_⟩
    cases c with
    | city =>
      exact ⟨Or.inl rfl, h2, h3, h4, h5, h6, h7, h8⟩
    | neighborhood =>
      exact ⟨h1, Or.inl rfl, h3, h4, h5, h6, h7, h8⟩
    | cuisine =>
      exact ⟨h1, h2, Or.inl rfl, h4, h5, h6, h7, h8⟩
    | tag =>
      exact ⟨h1, h2, h3, Or.inl rfl, h5, h6, h7, h8⟩
    | price =>
      exact ⟨h1, h2, h3, h4, Or.inl le_rfl, h6, h7, h8⟩
    | wouldReturn =>
      exact ⟨h1, h2, h3, h4, h5, Or.inl rfl, h7, h8⟩
    | minRating =>
      exact ⟨h1, h2, h3, h4, h5, h6, Or.inl le_rfl, h8⟩
    | text =>
      exact ⟨h1, h2, h3, h4, h5, h6, h7, Or.inl rfl⟩

/-- C10 — The filter stage returns a subsequence of its input: the output is
a sublist of the input (so relative order is preserved), every output element
is an input element, and no element occurs more often in the output than in
the input. -/
theorem filter_output_subsequence (ps : List Place) (Q : QueryState) :
    (filtered Q ps).Sublist ps ∧ (∀ p ∈ filtered Q ps, p ∈ ps) ∧
      ∀ p, (filtered Q ps).count p ≤ ps.count p := by
  refine ⟨List.filter_sublist ps, fun p hp => (List.mem_filter.mp hp).1, fun p => ?_⟩
  exact (List.filter_sublist ps).count_le p

/-- Inserting into a list is a permutation of consing. -/
theorem jsInsert_perm (le : α → α → Bool) (a : α) (l : List α) :
    (jsInsert le a l).Perm (a :: l) := by
  induction l with
  | nil => exact List.Perm.refl _
  | cons b r ih =>
    simp only [jsInsert]
    split
    · exact List.Perm.refl _
    · exact (List.Perm.cons b ih).trans (List.Perm.swap a b r)

/-- The embedded sort permutes its input. -/
theorem jsSort_perm (le : α → α → Bool) (l : List α) : (jsSort le l).Perm l := by
  induction l with
  | nil => exact List.Perm.refl _
  | cons a l ih => exact (jsInsert_perm le a (jsSort le l)).trans (List.Perm.cons a ih)

/-- Inserting into an `R`-pairwise list keeps it `R`-pairwise, for any
transitive `R` that over-approximates the comparator in both directions. -/
theorem jsInsert_pairwise {le : α → α → Bool} {R : α → α → Prop}
    (htrans : ∀ x y z, R x y → R y z → R x z)
    (h1 : ∀ x y, le x y = true → R x y) (h2 : ∀ x y, le x y = false → R y x)
    (a : α) {l : List α} (hl : l.Pairwise R) : (jsInsert le a l).Pairwise R := by
  induction l with
  | nil => simp [jsInsert]
  | cons b r ih =>
    rcases List.pairwise_cons.mp hl with ⟨hbr, hr⟩
    simp only [jsInsert]
    cases hab : le a b with
    | true =>
      simp only [if_pos]
      refine List.pairwise_cons.mpr ⟨?_, hl⟩
      intro x hx
      rcases List.mem_cons.mp hx with rfl | hx'
      · exact h1 a x hab
      · exact htrans a b x (h1 a b hab) (hbr x hx')
    | false =>
      simp only [hab, Bool.false_eq_true, if_false]
      refine List.pairwise_cons.mpr ⟨?_, ih hr⟩
      intro x hx
      rcases List.mem_cons.mp ((jsInsert_perm le a r).mem_iff.mp hx) with rfl | hx'
      · exact h2 x b hab
      · exact hbr x hx'

/-- The embedded sort's output is `R`-pairwise for any transitive `R` that
over-approximates the comparator in both directions. -/
theorem jsSort_pairwise {le : α → α → Bool} {R : α → α → Prop}
    (htrans : ∀ x y z, R x y → R y z → R x z)
    (h1 : ∀ x y, le x y = true → R x y) (h2 : ∀ x y, le x y = false → R y x)
    (l : List α) : (jsSort le l).Pairwise R := by
  induction l with
  | nil => simp [jsSort]
  | cons a l ih => exact jsInsert_pairwise htrans h1 h2 a ih

/-- Filtering through an insertion: when every two elements the predicate
keeps tie under the comparator (so the inserted element cannot pass a kept
one), insertion prepends the element to the filtered rest or leaves it
unchanged. -/
theorem jsInsert_filter {le : α → α → Bool} (p : α → Bool) (a : α) (l : List α)
    (hstab : ∀ y, p a = true → p y = true → le a y = true) :
    (jsInsert le a l).filter p = if p a then a :: l.filter p else l.filter p := by
  induction l with
  | nil => cases hpa : p a <;> simp [jsInsert, List.filter, hpa]
  | cons b r ih =>
    simp only [jsInsert]
    cases hab : le a b with
    | true =>
      cases hpa : p a <;> simp [List.filter_cons, hpa]
    | false =>
      cases hpa : p a with
      | false =>
        simp only [hab, Bool.false_eq_true, if_false, List.filter_cons, ih, hpa]
      | true =>
        have hpb : p b = false := by
          cases hpb : p b
          · rfl
          · exact absurd (hstab b hpa hpb) (by simp [hab])
        simp [List.filter_cons, hpa, hpb, ih]

/-- Stability of the embedded sort, filter form: the subsequence of elements
kept by a predicate whose kept elements pairwise tie under the comparator is
exactly the same subsequence of the input. -/
theorem jsSort_filter {le : α → α → Bool} (p : α → Bool)
    (hstab : ∀ x y, p x = true → p y = true → le x y = true) (l : List α) :
    (jsSort le l).filter p = l.filter p := by
  induction l with
  | nil => rfl
  | cons a l ih =>
    show (jsInsert le a (jsSort le l)).filter p = _
    rw [jsInsert_filter p a _ (fun y => hstab a y)]
    cases hpa : p a <;> simp [List.filter_cons, hpa, ih]

/-- Stability of the embedded sort, pair form: two elements with the same
sort key (any key on which the comparator ties) come out in their input
order. -/
theorem jsSort_stable_pair {κ : Type} (le : α → α → Bool) (k : α → κ)
    [DecidableEq κ] (a b : α) (l : List α) (hk : k a = k b)
    (hstab : ∀ x y, k x = k a → k y = k a → le x y = true)
    (hab : [a, b].Sublist l) : [a, b].Sublist (jsSort le l) := by
  have hfl : ([a, b].filter fun x => decide (k x = k a)) = [a, b] := by
    simp [List.filter, hk.symm]
  have h1 : [a, b].Sublist (l.filter fun x => decide (k x = k a)) :=
    hfl ▸ hab.filter (fun x => decide (k x = k a))
  rw [← jsSort_filter (fun x => decide (k x = k a))
    (fun x y hx hy => hstab x y (of_decide_eq_true hx) (of_decide_eq_true hy)) l] at h1
  exact h1.trans (List.filter_sublist _)

/-- The sort stage on the `top` strategy. -/
theorem sorted_top (d : Loc → ℚ → ℚ → ℚ) (loc : Option Loc) (l : List Place) :
    sorted d topSort loc l = jsSort (fun a b => decide (topKey b ≤ topKey a)) l := by
  unfold sorted
  rw [if_neg (by decide), if_neg (by decide), if_neg (by decide)]

/-- The sort stage on the `recent` strategy. -/
theorem sorted_recent (d : Loc → ℚ → ℚ → ℚ) (loc : Option Loc) (l : List Place) :
    sorted d recentSort loc l = jsSort (fun a b => lexLe (visitedKey b) (visitedKey a)) l := by
  unfold sorted
  rw [if_neg (by decide), if_pos rfl]

/-- The sort stage on the `name` strategy. -/
theorem sorted_name (d : Loc → ℚ → ℚ → ℚ) (loc : Option Loc) (l : List Place) :
    sorted d nameSort loc l = jsSort (fun a b => lexLe (nameKey a) (nameKey b)) l := by
  unfold sorted
  rw [if_pos rfl]

/-- The sort stage on the `nearest` strategy without a user location. -/
theorem sorted_nearest_none (d : Loc → ℚ → ℚ → ℚ) (l : List Place) :
    sorted d nearestSort none l = l := by
  unfold sorted
  rw [if_neg (by decide), if_neg (by decide), if_pos rfl]

/-- The sort stage on the `nearest` strategy with a user location. -/
theorem sorted_nearest_some (d : Loc → ℚ → ℚ → ℚ) (u : Loc) (l : List Place) :
    sorted d nearestSort (some u) l = jsSort (nearestLe d u) l := by
  unfold sorted
  rw [if_neg (by decide), if_neg (by decide), if_pos rfl]

/-- Lexicographic comparison is reflexive. -/
theorem lexLe_refl (s : JsStr) : lexLe s s = true := by
  induction s with
  | nil => rfl
  | cons a s ih => simp [lexLe, ih]

/-- C3 counterexample — Sort stability fails on the code as claimed: under
the `nearest` strategy with a user location present, the two coordinate-less
places (whose sort keys tie: both sort after every valid-coordinate place)
come out in the reverse of their input order, because the comparator answers
1 for such a pair in both argument orders, which no stable sort can honour. -/
theorem sort_stability_cex :
    sorted dZero nearestSort (some uSeattle) [cPike, cNoCoordsA, cNoCoordsB] =
      [cPike, cNoCoordsB, cNoCoordsA] ∧ cNoCoordsA ≠ cNoCoordsB := by decide

/-- C3 amended — Sort stability holds for the `top`, `recent` and `name`
strategies, for equal-distance valid-coordinate pairs under `nearest` with a
location, and trivially under `nearest` without a location; only a pair of
places both lacking valid coordinates under `nearest` can be reordered (see
the counterexample). -/
theorem sort_stability_amended (d : Loc → ℚ → ℚ → ℚ) (u : Loc) (loc : Option Loc)
    (l : List Place) (a b : Place) :
    (topKey a = topKey b → [a, b].Sublist l →
      [a, b].Sublist (sorted d topSort loc l)) ∧
    (visitedKey a = visitedKey b → [a, b].Sublist l →
      [a, b].Sublist (sorted d recentSort loc l)) ∧
    (nameKey a = nameKey b → [a, b].Sublist l →
      [a, b].Sublist (sorted d nameSort loc l)) ∧
    (validCoords a = true → validCoords b = true → distTo d u a = distTo d u b →
      [a, b].Sublist l → [a, b].Sublist (sorted d nearestSort (some u) l)) ∧
    ([a, b].Sublist l → [a, b].Sublist (sorted d nearestSort none l)) := by
  refine ⟨?_, ?_, ?_, ?_, ?_⟩
  · intro hk hab
    rw [sorted_top]
    exact jsSort_stable_pair _ topKey a b l hk
      (fun x y hx hy => decide_eq_true (le_of_eq (hy.trans hx.symm))) hab
  · intro hk hab
    rw [sorted_recent]
    exact jsSort_stable_pair _ visitedKey a b l hk
      (fun x y hx hy => by rw [hx, hy]; exact lexLe_refl _) hab
  · intro hk hab
    rw [sorted_name]
    exact jsSort_stable_pair _ nameKey a b l hk
      (fun x y hx hy => by rw [hx, hy]; exact lexLe_refl _) hab
  · intro hva hvb hd hab
    rw [sorted_nearest_some]
    refine jsSort_stable_pair _ (nearestKey d u) a b l ?_ ?_ hab
    · simp [nearestKey, hva, hvb, hd]
    · intro x y hx hy
      simp only [nearestKey] at hx hy
      rw [if_pos hva] at hx hy
      have hvx : validCoords x = true := by
        by_contra hc
        rw [if_neg hc] at hx
        exact Option.noConfusion hx
      have hvy : validCoords y = true := by
        by_contra hc
        rw [if_neg hc] at hy
        exact Option.noConfusion hy
      rw [if_pos hvx, Option.some.injEq] at hx
      rw [if_pos hvy, Option.some.injEq] at hy
      unfold nearestLe
      rw [if_neg (by simp [hvx]), if_neg (by simp [hvy])]
      exact decide_eq_true (le_of_eq (hx.trans hy.symm))
  · intro hab
    rw [sorted_nearest_none]
    exact hab

/-- C4 counterexample — The claim's tie-break clause fails: two
coordinate-less places under `nearest` with a location present are emitted in
the reverse of their input order (the comparator returns 1 for the pair in
both argument orders, so no sort can honour an input-order tie-break). -/
theorem nearest_tiebreak_cex :
    sorted dZero nearestSort (some uSeattle) [cNoCoordsC, cNoCoordsD] =
      [cNoCoordsD, cNoCoordsC] ∧ cNoCoordsC ≠ cNoCoordsD := by decide

/-- C4 amended — Nearest sort, for every distance function: without a user
location the input comes back unchanged and no error is raised (the function
is total); with a location the output is a permutation of the input in which
valid-coordinate places are in ascending distance order (so for distances
dA < dB < dC the places appear in that order), no valid-coordinate place
follows a coordinate-less one, and in particular no inverted valid pair
exists; the relative order of the coordinate-less places themselves is NOT
the input order (see the counterexample). -/
theorem nearest_sort_amended (d : Loc → ℚ → ℚ → ℚ) (u : Loc) (l : List Place) :
    sorted d nearestSort none l = l ∧
    (sorted d nearestSort (some u) l).Perm l ∧
    (sorted d nearestSort (some u) l).Pairwise (fun a b =>
      (validCoords a = true → validCoords b = true → distTo d u a ≤ distTo d u b) ∧
      (validCoords a = false → validCoords b = false)) ∧
    (∀ a b, [a, b].Sublist (sorted d nearestSort (some u) l) → validCoords a = true →
      validCoords b = true → distTo d u a ≤ distTo d u b) := by
  have hpw : (sorted d nearestSort (some u) l).Pairwise (fun a b =>
      (validCoords a = true → validCoords b = true → distTo d u a ≤ distTo d u b) ∧
      (validCoords a = false → validCoords b = false)) := by
    rw [sorted_nearest_some]
    apply jsSort_pairwise
    · rintro x y z ⟨hxy1, hxy2⟩ ⟨hyz1, hyz2⟩
      constructor
      · intro hvx hvz
        cases hvy : validCoords y with
        | true => exact le_trans (hxy1 hvx hvy) (hyz1 hvy hvz)
        | false => exact absurd hvz (by simp [hyz2 hvy])
      · intro hvx
        exact hyz2 (hxy2 hvx)
    · intro x y hxy
      unfold nearestLe at hxy
      cases hvx : validCoords x with
      | false => simp [hvx] at hxy
      | true =>
        cases hvy : validCoords y with
        | false =>
          exact ⟨fun _ hy' => absurd hy' (by simp [hvy]),
            fun hx' => absurd hx' (by simp [hvx])⟩
        | true =>
          have hle : distTo d u x ≤ distTo d u y := by simpa [hvx, hvy] using hxy
          exact ⟨fun _ _ => hle, fun hx' => absurd hx' (by simp [hvx])⟩
    · intro x y hxy
      unfold nearestLe at hxy
      cases hvx : validCoords x with
      | false => exact ⟨fun _ hx' => absurd hx' (by simp), fun _ => rfl⟩
      | true =>
        cases hvy : validCoords y with
        | false => simp [hvx, hvy] at hxy
        | true =>
          have hle : distTo d u y ≤ distTo d u x := by
            have h' := hxy
            simp [hvx, hvy] at h'
            exact le_of_lt h'
          exact ⟨fun _ _ => hle, fun hy' => absurd hy' (by simp [hvy])⟩
  refine ⟨sorted_nearest_none d l, by rw [sorted_nearest_some]; exact jsSort_perm _ l, hpw, ?_⟩
  intro a b hab hva hvb
  have hp2 := List.Pairwise.sublist hab hpw
  exact (List.pairwise_cons.mp hp2).1 b (List.mem_singleton.mpr rfl) |>.1 hva hvb

/-- C7 counterexample — The `top` key is not the spec's key: a place rated
exactly 0 is coerced by the JS `||` to the same key -1 as an unrated place,
so with an unrated place first the output is NOT descending in the spec's key
(absent ↦ -1, rating 0 ↦ 0): the unrated place stays ahead of the 0-rated
one. -/
theorem top_sort_zero_rating_cex :
    sorted dZero topSort none [cUnrated, cZeroRated] = [cUnrated, cZeroRated] ∧
      specTopKey cUnrated < specTopKey cZeroRated := by decide

/-- C7 amended — Under the default `top` strategy the output is a permutation
of the input, ordered descending by the code's key `Number(rating) || -1` —
which sends absent, non-numeric AND exactly-zero ratings all to -1, so a
0-rated place ties with (and does not precede) unrated places — and places
with equal keys keep their input order. -/
theorem top_sort_amended (d : Loc → ℚ → ℚ → ℚ) (loc : Option Loc) (l : List Place) :
    (sorted d topSort loc l).Perm l ∧
    (sorted d topSort loc l).Pairwise (fun a b => topKey b ≤ topKey a) ∧
    (∀ a b, topKey a = topKey b → [a, b].Sublist l →
      [a, b].Sublist (sorted d topSort loc l)) := by
  rw [sorted_top]
  refine ⟨jsSort_perm _ l, ?_, ?_⟩
  · apply jsSort_pairwise
    · intro x y z hxy hyz
      exact le_trans hyz hxy
    · intro x y h
      exact of_decide_eq_true h
    · intro x y h
      exact le_of_lt (not_le.mp (of_decide_eq_false h))
  · intro a b hk hab
    exact jsSort_stable_pair _ topKey a b l hk
      (fun x y hx hy => decide_eq_true (le_of_eq (hy.trans hx.symm))) hab

/-- C8 counterexample — A JSON array is not returned as an empty mapping:
on stored content `"[0]"` (which `JSON.parse` turns into the array `[0]`,
a truthy value with `typeof === "object"`), `loadEdits` returns the array
itself — a value with a populated `"0"` property — not the empty mapping the
claim requires for content that is not an object mapping. -/
theorem load_edits_array_cex :
    loadEdits parseArrStub (some "[0]".data) = JsValue.arr [JsValue.num 0] ∧
      JsValue.arr [JsValue.num 0] ≠ JsValue.obj [] := by
  refine ⟨rfl, ?_⟩
  intro h
  exact JsValue.noConfusion h

/-- C8 amended — The overlay loader fails open and never raises (it is a
total function): absent content, empty content, content on which the parse
throws, and content parsing to a falsy value or to a non-object (`null`,
booleans, numbers, strings) all yield the empty mapping; a truthy value whose
JS `typeof` is `"object"` — a JSON object OR a JSON array — is returned
as the mapping itself (see the counterexample for the array case). -/
theorem load_edits_fails_open (jsonParse : JsStr → Option JsValue) :
    loadEdits jsonParse none = JsValue.obj [] ∧
    loadEdits jsonParse (some []) = JsValue.obj [] ∧
    (∀ raw, jsonParse raw = none → loadEdits jsonParse (some raw) = JsValue.obj []) ∧
    (∀ raw v, jsonParse raw = some v → (jsTruthy v && typeofObject v) = false →
      loadEdits jsonParse (some raw) = JsValue.obj []) ∧
    (∀ raw v, raw ≠ [] → jsonParse raw = some v → (jsTruthy v && typeofObject v) = true →
      loadEdits jsonParse (some raw) = v) := by
  refine ⟨rfl, rfl, ?_, ?_, ?_⟩
  · intro raw hp
    unfold loadEdits
    cases hre : raw.isEmpty
    · simp [hre, hp]
    · simp [hre]
  · intro raw v hp hf
    unfold loadEdits
    cases hre : raw.isEmpty
    · simp [hre, hp, hf]
    · simp [hre]
  · intro raw v hne hp ht
    have hre : raw.isEmpty = false := by
      cases raw
      · exact absurd rfl hne
      · rfl
    unfold loadEdits
    simp [hre, hp, ht]

/-- Association-list lookup distributes over append, first hit wins. -/
theorem lookup_append {α β : Type} [BEq α] (k : α) (l r : List (α × β)) :
    List.lookup k (l ++ r) = (List.lookup k l).or (List.lookup k r) := by
  induction l with
  | nil => simp [List.lookup]
  | cons kv t ih =>
    cases kv with
    | mk k' v =>
      simp only [List.cons_append, List.lookup]
      cases h : k == k'
      · simp [ih]
      · simp

/-- Lookup misses a guarded singleton with a different key. -/
theorem lookup_opt_single_ne {β : Type} (k k' : JsStr) (v : β) (b : Prop) [Decidable b]
    (hne : (k == k') = false) :
    List.lookup k (if b then [(k', v)] else []) = none := by
  split
  · simp [List.lookup, hne]
  · rfl

/-- Lookup hits a guarded singleton with its own key exactly when the guard
holds. -/
theorem lookup_opt_single_eq {β : Type} (k : JsStr) (v : β) (b : Prop) [Decidable b] :
    List.lookup k (if b then [(k, v)] else []) = if b then some v else none := by
  split
  · simp [List.lookup]
  · rfl

/-- Every digit the fuelled extractor emits is below the base. -/
theorem natDigits_lt (fuel n : ℕ) : ∀ d ∈ natDigits fuel n, d < 10 := by
  induction fuel generalizing n with
  | zero =>
    intro d hd
    simp [natDigits] at hd
  | succ f ih =>
    intro d hd
    cases n with
    | zero => simp [natDigits] at hd
    | succ m =>
      rcases List.mem_cons.mp hd with rfl | hd'
      · exact Nat.mod_lt _ (by norm_num)
      · exact ih ((m + 1) / 10) d hd'

/-- The fuelled digit extraction is re-assembled by `Nat.ofDigits`. -/
theorem ofDigits_natDigits (fuel n : ℕ) (h : n ≤ fuel) :
    Nat.ofDigits 10 (natDigits fuel n) = n := by
  induction fuel generalizing n with
  | zero =>
    have h0 : n = 0 := by omega
    subst h0
    simp [natDigits, Nat.ofDigits]
  | succ f ih =>
    cases n with
    | zero => simp [natDigits, Nat.ofDigits]
    | succ m =>
      show Nat.ofDigits 10 ((m + 1) % 10 :: natDigits f ((m + 1) / 10)) = m + 1
      rw [Nat.ofDigits_cons, ih ((m + 1) / 10) (by omega)]
      omega

/-- The digit characters invert to their digits. -/
theorem charDigit_digitChar (d : ℕ) (h : d < 10) : charDigit (digitChar d) = d := by
  unfold digitChar
  split_ifs with h0 h1 h2 h3 h4 h5 h6 h7 h8
  · subst h0; decide
  · subst h1; decide
  · subst h2; decide
  · subst h3; decide
  · subst h4; decide
  · subst h5; decide
  · subst h6; decide
  · subst h7; decide
  · subst h8; decide
  · have h9 : d = 9 := by omega
    subst h9; decide

/-- No digit character is the separator. -/
theorem digitChar_ne_slash (d : ℕ) : (digitChar d == '/') = false := by
  unfold digitChar
  split_ifs <;> decide

/-- Decimal rendering of a natural number parses back to it. -/
theorem strToNat_natToStr (n : ℕ) : strToNat (natToStr n) = n := by
  unfold strToNat natToStr
  rw [List.reverse_reverse, List.map_map]
  have hcongr : ∀ d ∈ natDigits n n, (charDigit ∘ digitChar) d = id d := fun d hd =>
    charDigit_digitChar d (natDigits_lt n n d hd)
  rw [List.map_congr_left hcongr, List.map_id]
  exact ofDigits_natDigits n n le_rfl

/-- Every character of a rendered natural number is a digit character, hence
not the separator. -/
theorem natToStr_no_slash (n : ℕ) : ∀ c ∈ natToStr n, (!(c == '/')) = true := by
  intro c hc
  unfold natToStr at hc
  rw [List.mem_reverse] at hc
  rcases List.mem_map.mp hc with ⟨d, _, rfl⟩
  simp [digitChar_ne_slash d]

/-- `takeWhile`/`dropWhile` split a list around the first failing element. -/
theorem takeWhile_append_cons {p : Char → Bool} (a : JsStr) (x : Char) (b : JsStr)
    (ha : ∀ c ∈ a, p c = true) (hx : p x = false) :
    (a ++ x :: b).takeWhile p = a ∧ (a ++ x :: b).dropWhile p = x :: b := by
  induction a with
  | nil => simp [List.takeWhile_cons, List.dropWhile_cons, hx]
  | cons c t ih =>
    have hc : p c = true := ha c (List.mem_cons_self c t)
    obtain ⟨h1, h2⟩ := ih fun c' h => ha c' (List.mem_cons_of_mem c h)
    simp [List.takeWhile_cons, List.dropWhile_cons, hc, h1, h2]

/-- The exact numeric rendering parses back to the number, for the positive
values the encoder emits. -/
theorem strToNum_numToStr (x : ℚ) (hx : 0 < x) : strToNum (numToStr x) = x := by
  unfold numToStr strToNum
  obtain ⟨ht, hd⟩ := takeWhile_append_cons (natToStr x.num.toNat) '/' (natToStr x.den)
    (natToStr_no_slash x.num.toNat) (by decide)
  rw [ht, hd]
  show mkRat (strToNat (natToStr x.num.toNat)) (strToNat (natToStr x.den)) = x
  rw [strToNat_natToStr, strToNat_natToStr,
    Int.toNat_of_nonneg (le_of_lt (Rat.num_pos.mpr hx)), Rat.mkRat_self]

/-- As `lookup_opt_single_ne`, with the branches flipped (the normal form a
negated guard simplifies to). -/
theorem lookup_opt_single_ne' {β : Type} (k k' : JsStr) (v : β) (b : Prop) [Decidable b]
    (hne : (k == k') = false) :
    List.lookup k (if b then [] else [(k', v)]) = none := by
  split
  · rfl
  · simp [List.lookup, hne]

/-- As `lookup_opt_single_eq`, with the branches flipped. -/
theorem lookup_opt_single_eq' {β : Type} (k : JsStr) (v : β) (b : Prop) [Decidable b] :
    List.lookup k (if b then [] else [(k, v)]) = if b then none else some v := by
  split
  · rfl
  · simp [List.lookup]

/-- Each parameter's lookup in the encoder's output: its own value under its
own guard, `none` otherwise. -/
theorem lookup_write (q city cuisine hood tag : JsStr) (mr pr : ℚ) (wr : Bool)
    (srt : JsStr) :
    List.lookup "q".data (writeUrlState ⟨q, city, cuisine, hood, tag, mr, pr, wr, srt⟩) =
      (if q ≠ [] then some q else none) ∧
    List.lookup "city".data (writeUrlState ⟨q, city, cuisine, hood, tag, mr, pr, wr, srt⟩) =
      (if city ≠ [] then some city else none) ∧
    List.lookup "cuisine".data (writeUrlState ⟨q, city, cuisine, hood, tag, mr, pr, wr, srt⟩) =
      (if cuisine ≠ [] then some cuisine else none) ∧
    List.lookup "hood".data (writeUrlState ⟨q, city, cuisine, hood, tag, mr, pr, wr, srt⟩) =
      (if hood ≠ [] then some hood else none) ∧
    List.lookup "tag".data (writeUrlState ⟨q, city, cuisine, hood, tag, mr, pr, wr, srt⟩) =
      (if tag ≠ [] then some tag else none) ∧
    List.lookup "minRating".data (writeUrlState ⟨q, city, cuisine, hood, tag, mr, pr, wr, srt⟩) =
      (if 0 < mr then some (numToStr mr) else none) ∧
    List.lookup "price".data (writeUrlState ⟨q, city, cuisine, hood, tag, mr, pr, wr, srt⟩) =
      (if 0 < pr then some (numToStr pr) else none) ∧
    List.lookup "return".data (writeUrlState ⟨q, city, cuisine, hood, tag, mr, pr, wr, srt⟩) =
      (if wr = true then some "1".data else none) ∧
    List.lookup "sort".data (writeUrlState ⟨q, city, cuisine, hood, tag, mr, pr, wr, srt⟩) =
      (if srt ≠ [] ∧ srt ≠ topSort then some srt else none) := by
  unfold writeUrlState
  refine ⟨?_, ?_, ?_, ?_, ?_, ?_, ?_, ?_, ?_⟩ <;>
    simp +decide [lookup_append, lookup_opt_single_ne, lookup_opt_single_eq,
      lookup_opt_single_ne', lookup_opt_single_eq']

/-- C5 — URL round trip: for every query state built from the canonical
parameter set (strings for term/city/cuisine/neighborhood/tag, non-negative
numbers for minRating and price with 0 meaning unconstrained, a boolean
would-return flag, and a sort in top/recent/name/nearest), decoding the
parameters the encoder produced yields exactly the state, with absent
parameters decoding to their defaults (empty string, 0, false, top). -/
theorem url_roundtrip (Q : QueryState) (hmr : 0 ≤ Q.minRating) (hpr : 0 ≤ Q.price)
    (hs : Q.sort = topSort ∨ Q.sort = recentSort ∨ Q.sort = nameSort ∨
      Q.sort = nearestSort) :
    parseUrlState (writeUrlState Q) = Q := by
  obtain ⟨q, city, cuisine, hood, tag, mr, pr, wr, srt⟩ := Q
  obtain ⟨hq, hcity, hcui, hhood, htag, hmrl, hprl, hretl, hsortl⟩ :=
    lookup_write q city cuisine hood tag mr pr wr srt
  unfold parseUrlState
  rw [QueryState.mk.injEq]
  refine ⟨?_, ?_, ?_, ?_, ?_, ?_, ?_, ?_, ?_⟩
  · rw [hq]
    by_cases h : q = []
    · rw [if_neg (by simp [h]), Option.getD_none]
      exact h.symm
    · rw [if_pos h, Option.getD_some]
  · rw [hcity]
    by_cases h : city = []
    · rw [if_neg (by simp [h]), Option.getD_none]
      exact h.symm
    · rw [if_pos h, Option.getD_some]
  · rw [hcui]
    by_cases h : cuisine = []
    · rw [if_neg (by simp [h]), Option.getD_none]
      exact h.symm
    · rw [if_pos h, Option.getD_some]
  · rw [hhood]
    by_cases h : hood = []
    · rw [if_neg (by simp [h]), Option.getD_none]
      exact h.symm
    · rw [if_pos h, Option.getD_some]
  · rw [htag]
    by_cases h : tag = []
    · rw [if_neg (by simp [h]), Option.getD_none]
      exact h.symm
    · rw [if_pos h, Option.getD_some]
  · rw [hmrl]
    by_cases h : 0 < mr
    · rw [if_pos h, Option.getD_some]
      exact strToNum_numToStr mr h
    · rw [if_neg h, Option.getD_none]
      have h0 : mr = 0 := le_antisymm (not_lt.mp h) hmr
      rw [h0]
      decide
  · rw [hprl]
    by_cases h : 0 < pr
    · rw [if_pos h, Option.getD_some]
      exact strToNum_numToStr pr h
    · rw [if_neg h, Option.getD_none]
      have h0 : pr = 0 := le_antisymm (not_lt.mp h) hpr
      rw [h0]
      decide
  · rw [hretl]
    cases wr
    · rw [if_neg (by simp)]
      rfl
    · rw [if_pos rfl]
      decide
  · rw [hsortl]
    rcases hs with h | h | h | h
    · subst h
      rw [if_neg (fun hc => hc.2 rfl), Option.getD_none]
    · subst h
      rw [if_pos ⟨by decide, by decide⟩, Option.getD_some]
    · subst h
      rw [if_pos ⟨by decide, by decide⟩, Option.getD_some]
    · subst h
      rw [if_pos ⟨by decide, by decide⟩, Option.getD_some]

/-- C5 witness — the round trip at a concrete canonical state: a free-text
term, a city, a neighborhood, a fractional minimum rating of 9/2, a set
would-return flag and the `name` sort. -/
theorem url_roundtrip_witness : parseUrlState (writeUrlState qStateDemo) = qStateDemo :=
  url_roundtrip qStateDemo (by decide) (by decide) (Or.inr (Or.inr (Or.inl rfl)))
